import Mathlib

/-!
Verification development for the Stylus-Trace profiler core.

The Rust source is shallowly embedded: `u64`/`u32` values are `Nat` with an
explicit `% 2 ^ 64` wherever the Rust arithmetic can wrap (release-mode
wrapping semantics); the `HashMap<String, u64>` aggregation map is an
insertion-ordered association list; the nondeterministic iteration order of
the hash map is made explicit by quantifying over permutations of that list;
`Vec::sort_by`, a stable sort, is embedded as a stable insertion sort;
fallible functions return `Except`.

Embedded files:
  src/aggregator/stack_builder.rs  (CollapsedStack, build_collapsed_stacks,
                                    add_hostio_stacks, merge_small_stacks)
  src/parser/stylus_trace.rs       (ExecutionStep, ParsedTrace,
                                    parse_steps_array, validate_trace_format)
  src/rpc/client.rs                (normalize_tx_hash)
The host-interaction statistics type (`parser/hostio.rs`), the error type
(`utils/error.rs`) and the hot-path ranker (`aggregator`'s
`calculate_hot_paths`) are not present in the sources and are modelled from
the specification where needed; each such definition is marked.
-/

/-- Modulus of 64-bit unsigned arithmetic. -/
def U64 : Nat := 2 ^ 64

/-- One execution step (struct `ExecutionStep`, src/parser/stylus_trace.rs).
`u64`/`u32` fields become `Nat`; the two `Option<String>` fields stay options. -/
structure ExecutionStep where
  pc : Nat
  gas : Nat
  gas_cost : Nat
  op : Option String
  depth : Nat
  function : Option String
deriving DecidableEq, Repr

/-- The closed enumeration of host-interaction kinds (`HostIoType`).  The
defining file `parser/hostio.rs` is absent; the variant list is taken from
its use in `add_hostio_stacks` (src/aggregator/stack_builder.rs, lines
189-201), which spells out all eleven variants. -/
inductive HostIoType where
  | StorageLoad
  | StorageStore
  | Call
  | StaticCall
  | DelegateCall
  | Create
  | Log
  | SelfDestruct
  | AccountBalance
  | BlockHash
  | Other
deriving DecidableEq, Repr

/-- The string `format!("{:?}", t)` produces for a `HostIoType` value: the
derived `Debug` representation of a fieldless enum variant is its name. -/
def hostio_type_name : HostIoType → String
  | .StorageLoad => "StorageLoad"
  | .StorageStore => "StorageStore"
  | .Call => "Call"
  | .StaticCall => "StaticCall"
  | .DelegateCall => "DelegateCall"
  | .Create => "Create"
  | .Log => "Log"
  | .SelfDestruct => "SelfDestruct"
  | .AccountBalance => "AccountBalance"
  | .BlockHash => "BlockHash"
  | .Other => "Other"

/-- Modelled from the spec: `HostIoStats` (parser/hostio.rs) is absent from
src/.  Per spec section 4.2 the host-interaction extractor produces per-kind
counts, a total call count and a total gas figure; `stack_builder.rs` consumes
it only through `count_for_type`, `total_calls()` and `total_gas()`. -/
structure HostIoStats where
  counts : HostIoType → Nat
  total_calls : Nat
  total_gas : Nat

/-- Accessor `HostIoStats::count_for_type`. -/
def HostIoStats.count_for_type (s : HostIoStats) (t : HostIoType) : Nat :=
  s.counts t

/-- Parsed trace (struct `ParsedTrace`, src/parser/stylus_trace.rs). -/
structure ParsedTrace where
  transaction_hash : String
  total_gas_used : Nat
  execution_steps : List ExecutionStep
  hostio_stats : HostIoStats

/-- A single collapsed stack entry (struct `CollapsedStack`,
src/aggregator/stack_builder.rs). -/
structure CollapsedStack where
  stack : String
  weight : Nat
deriving DecidableEq, Repr

/-- Operation-name resolution for one step
(`step.function.as_deref().or(step.op.as_deref()).unwrap_or("unknown")`,
stack_builder.rs lines 94-96). -/
def op_name (step : ExecutionStep) : String :=
  match step.function with
  | some f => f
  | none =>
    match step.op with
    | some o => o
    | none => "unknown"

/-- Depth reconciliation (stack_builder.rs lines 99-111): truncate the call
stack when the step depth is below its length, then push literal "call"
placeholder frames until the length equals the step depth. -/
def reconcile_depth (call_stack : List String) (current_depth : Nat) : List String :=
  let truncated :=
    if current_depth < call_stack.length then call_stack.take current_depth else call_stack
  truncated ++ List.replicate (current_depth - truncated.length) "call"

/-- Path-string construction (stack_builder.rs lines 114-118):
`format!("{};{}", call_stack.join(";"), operation)` on a non-empty stack. -/
def stack_string (call_stack : List String) (operation : String) : String :=
  if call_stack.isEmpty then operation
  else String.intercalate ";" call_stack ++ ";" ++ operation

/-- The map update `*stack_map.entry(k).or_insert(0) += v` on the
insertion-ordered association list embedding of the `HashMap`; the `u64`
addition wraps modulo `2 ^ 64`. -/
def entry_add (m : List (String × Nat)) (k : String) (v : Nat) : List (String × Nat) :=
  match m with
  | [] => [(k, (0 + v) % U64)]
  | (k1, v1) :: rest =>
    if k1 = k then (k1, (v1 + v) % U64) :: rest else (k1, v1) :: entry_add rest k v

/-- The step loop of `build_collapsed_stacks` (stack_builder.rs lines 92-126).
The Rust `prev_depth` variable is written but never read, so it is omitted.
A step adds its gas cost to the map entry of its path only when the cost is
strictly positive. -/
def process_steps : List ExecutionStep → List String → List (String × Nat) → List (String × Nat)
  | [], _, stack_map => stack_map
  | step :: rest, call_stack, stack_map =>
    let operation := op_name step
    let call_stack1 := reconcile_depth call_stack step.depth
    let stack_str := stack_string call_stack1 operation
    let stack_map1 :=
      if 0 < step.gas_cost then entry_add stack_map stack_str step.gas_cost else stack_map
    process_steps rest call_stack1 stack_map1

/-- The eleven host-interaction kinds in the order iterated by
`add_hostio_stacks` (stack_builder.rs lines 189-201). -/
def hostio_type_list : List HostIoType :=
  [.StorageLoad, .StorageStore, .Call, .StaticCall, .DelegateCall, .Create,
   .Log, .SelfDestruct, .AccountBalance, .BlockHash, .Other]

/-- Apportioned weight for one host-interaction kind (stack_builder.rs line
206): `(total_gas() * count) / total_calls().max(1)`; the `u64` product wraps
modulo `2 ^ 64`, the division cannot wrap. -/
def hostio_weight (t : ParsedTrace) (ht : HostIoType) : Nat :=
  t.hostio_stats.total_gas * t.hostio_stats.count_for_type ht % U64 /
    max t.hostio_stats.total_calls 1

/-- `add_hostio_stacks` (stack_builder.rs lines 181-210): for every kind with
non-zero count, accumulate the apportioned weight into the entry
`hostio;<kind>`. -/
def add_hostio_stacks (stack_map : List (String × Nat)) (t : ParsedTrace) :
    List (String × Nat) :=
  hostio_type_list.foldl
    (fun m ht =>
      if 0 < t.hostio_stats.count_for_type ht then
        entry_add m ("hostio;" ++ hostio_type_name ht) (hostio_weight t ht)
      else m)
    stack_map

/-- The final aggregation map of `build_collapsed_stacks` before it is turned
into a vector: steps first, then the host-interaction entries.  The list
order is the insertion order; an actual `HashMap` iteration yields some
permutation of it. -/
def final_stack_map (t : ParsedTrace) : List (String × Nat) :=
  add_hostio_stacks (process_steps t.execution_steps [] []) t

/-- `stacks.sort_by(|a, b| b.weight.cmp(&a.weight))` (stack_builder.rs line
137): a stable sort into non-increasing weight order, embedded as a stable
insertion sort. -/
def sort_stacks (stack_list : List CollapsedStack) : List CollapsedStack :=
  List.insertionSort (fun a b => b.weight ≤ a.weight) stack_list

/-- Tail of `build_collapsed_stacks` (stack_builder.rs lines 131-141) run on
one listing of the aggregation map: make `CollapsedStack` values and sort by
weight, descending.  A run of the Rust function corresponds to applying this
to some permutation of `final_stack_map`. -/
def build_collapsed_stacks_from (order : List (String × Nat)) : List CollapsedStack :=
  sort_stacks (order.map fun p => CollapsedStack.mk p.1 p.2)

/-- `build_collapsed_stacks` (stack_builder.rs lines 80-142) at the canonical
(insertion-order) listing of the aggregation map. -/
def build_collapsed_stacks (t : ParsedTrace) : List CollapsedStack :=
  build_collapsed_stacks_from (final_stack_map t)

/-- `merge_small_stacks` loop body (stack_builder.rs lines 229-235): keep a
stack whose weight reaches the threshold, otherwise fold its weight into the
running "other" total (`u64` addition, wrapping). -/
def merge_step (threshold : Nat) (acc : List CollapsedStack × Nat) (s : CollapsedStack) :
    List CollapsedStack × Nat :=
  if threshold ≤ s.weight then (acc.1 ++ [s], acc.2)
  else (acc.1, (acc.2 + s.weight) % U64)

/-- `merge_small_stacks` (stack_builder.rs lines 225-243). -/
def merge_small_stacks (stack_list : List CollapsedStack) (threshold : Nat) :
    List CollapsedStack :=
  let acc := stack_list.foldl (merge_step threshold) ([], 0)
  if 0 < acc.2 then acc.1 ++ [CollapsedStack.mk "other" acc.2] else acc.1

/-- JSON values as handed to the parser (`serde_json::Value`).  Only integral
numbers are represented: every gas-like field is deserialized through `u64`
(or `u32`), for which non-integral numbers fail in the same way as any other
ill-typed value.  Objects are field lists; `serde_json`'s map keeps keys
unique, which concrete inputs below respect. -/
inductive JsonValue where
  | null
  | bool (b : Bool)
  | num (n : Int)
  | str (s : String)
  | arr (elems : List JsonValue)
  | obj (fields : List (String × JsonValue))

/-- Modelled from the spec: the error enum `ParseError` (utils/error.rs) is
absent from src/; spec section 7 names `InvalidFormat` and
`UnsupportedVersion` as its parse-side variants, each carrying context. -/
inductive ParseError where
  | InvalidFormat (msg : String)
  | UnsupportedVersion (msg : String)
deriving DecidableEq, Repr

/-- First binding of a key in a JSON object (`Map::get`). -/
def get_field (fields : List (String × JsonValue)) (k : String) : Option JsonValue :=
  match fields with
  | [] => none
  | (k1, v) :: rest => if k1 = k then some v else get_field rest k

/-- `Map::contains_key`. -/
def contains_key (fields : List (String × JsonValue)) (k : String) : Bool :=
  match fields with
  | [] => false
  | (k1, _) :: rest => k1 = k || contains_key rest k

/-- Deserializing a `u64` field value: only an unsigned integral number fits. -/
def as_u64_value (j : JsonValue) : Option Nat :=
  match j with
  | .num n => if 0 ≤ n ∧ n < (2 ^ 64 : Int) then some n.toNat else none
  | _ => none

/-- Deserializing a `u32` field value. -/
def as_u32_value (j : JsonValue) : Option Nat :=
  match j with
  | .num n => if 0 ≤ n ∧ n < (2 ^ 32 : Int) then some n.toNat else none
  | _ => none

/-- A `#[serde(default)] u64` field: absent means 0, present must be `u64`. -/
def u64_field (fields : List (String × JsonValue)) (k : String) : Option Nat :=
  match get_field fields k with
  | none => some 0
  | some v => as_u64_value v

/-- A `#[serde(default)] u32` field. -/
def u32_field (fields : List (String × JsonValue)) (k : String) : Option Nat :=
  match get_field fields k with
  | none => some 0
  | some v => as_u32_value v

/-- A `#[serde(default)] Option<String>` field: absent or `null` is `None`,
a string is `Some`, anything else is a type error. -/
def opt_string_field (fields : List (String × JsonValue)) (k : String) :
    Option (Option String) :=
  match get_field fields k with
  | none => some none
  | some .null => some none
  | some (.str s) => some (some s)
  | some _ => none

/-- `serde_json::from_value::<ExecutionStep>` on one step object
(src/parser/stylus_trace.rs lines 17-43): derived map deserialization with
`#[serde(default)]` on every field and `gas_cost` additionally accepting the
alias `gasCost` (both present at once is a duplicate-field error); unknown
fields are ignored; a non-object value fails. -/
def parse_execution_step (j : JsonValue) : Option ExecutionStep :=
  match j with
  | .obj fields => do
    let pc ← u64_field fields "pc"
    let gas ← u64_field fields "gas"
    let gas_cost ←
      match get_field fields "gas_cost", get_field fields "gasCost" with
      | some _, some _ => none
      | some v, none => as_u64_value v
      | none, some v => as_u64_value v
      | none, none => some 0
    let op ← opt_string_field fields "op"
    let depth ← u32_field fields "depth"
    let function ← opt_string_field fields "function"
    some ⟨pc, gas, gas_cost, op, depth, function⟩
  | _ => none

/-- The accumulation loop of `parse_steps_array` (stylus_trace.rs lines
178-186): push each successfully parsed step, skip failures. -/
def parse_steps_loop : List JsonValue → List ExecutionStep → List ExecutionStep
  | [], acc => acc
  | j :: rest, acc =>
    match parse_execution_step j with
    | some step => parse_steps_loop rest (acc ++ [step])
    | none => parse_steps_loop rest acc

/-- `parse_steps_array` (stylus_trace.rs lines 175-195): parse every element,
dropping failures; fail with `InvalidFormat` exactly when the source array
was non-empty but nothing parsed. -/
def parse_steps_array (steps_array : List JsonValue) :
    Except ParseError (List ExecutionStep) :=
  let parsed := parse_steps_loop steps_array []
  if parsed.isEmpty && !steps_array.isEmpty then
    .error (.InvalidFormat "All execution steps failed to parse")
  else
    .ok parsed

/-- `validate_trace_format` (stylus_trace.rs lines 251-271): requires a JSON
object carrying at least one of the three gas keys `gasUsed`, `gas_used`,
`totalGas` or one of the three step keys `structLogs`, `steps`, `trace`. -/
def validate_trace_format (raw_trace : JsonValue) : Except ParseError Unit :=
  match raw_trace with
  | .obj fields =>
    let has_gas := contains_key fields "gasUsed" || contains_key fields "gas_used" ||
      contains_key fields "totalGas"
    let has_steps := contains_key fields "structLogs" || contains_key fields "steps" ||
      contains_key fields "trace"
    if !has_gas && !has_steps then
      .error (.InvalidFormat "Trace does not contain expected fields (gas or steps)")
    else .ok ()
  | _ => .error (.InvalidFormat "Expected JSON object")

/-- The acceptance set asserted by the specification for
`validate_trace_format`, written from the spec words alone (for comparison
with the code): an object containing at least one gas field under any of the
four aliases or at least one step-list field under any of the four aliases. -/
def spec_claimed_valid (raw_trace : JsonValue) : Bool :=
  match raw_trace with
  | .obj fields =>
    contains_key fields "gasUsed" || contains_key fields "gas_used" ||
      contains_key fields "totalGas" || contains_key fields "total_gas" ||
      contains_key fields "structLogs" || contains_key fields "struct_logs" ||
      contains_key fields "steps" || contains_key fields "trace"
  | _ => false

/-- Rust `str::starts_with` on valid UTF-8, as a character-sequence prefix
test. -/
def starts_with (s pat : String) : Bool :=
  pat.data.isPrefixOf s.data

/-- `normalize_tx_hash` (src/rpc/client.rs lines 113-119). -/
def normalize_tx_hash (tx_hash : String) : String :=
  if starts_with tx_hash "0x" then tx_hash else "0x" ++ tx_hash

/-- Modelled from the spec: `HotPath` (parser/schema.rs) is absent from src/;
spec sections 3 and 6 give it a stack string, a gas weight and a percentage
share.  The percentage, a float in the output schema, is carried exactly as a
rational here. -/
structure HotPath where
  stack : String
  gas : Nat
  percentage : Rat
deriving DecidableEq, Repr

/-- Ranking order from spec section 4.4: weight descending, ties broken by
path string ascending. -/
def hot_path_le (a b : CollapsedStack) : Prop :=
  b.weight < a.weight ∨ (b.weight = a.weight ∧ a.stack ≤ b.stack)

instance : DecidableRel hot_path_le := fun a b => by
  unfold hot_path_le
  infer_instance

/-- Modelled from the spec: `calculate_hot_paths` (the Hot-Path Ranker in the
aggregator module) is called by the integration test but absent from src/.
Per spec section 4.4: stable-sort the weighted paths by weight descending
with ties broken by path string ascending, truncate to `top_n`, and attach
`weight / total_gas * 100` as percentage, 0 when `total_gas` is 0. -/
def calculate_hot_paths (stack_list : List CollapsedStack) (total_gas : Nat)
    (top_n : Nat) : List HotPath :=
  ((List.insertionSort hot_path_le stack_list).take top_n).map
    (fun s =>
      ⟨s.stack, s.weight,
        if total_gas = 0 then 0 else (s.weight : Rat) / (total_gas : Rat) * 100⟩)

/-- Keys of the association-list embedding of the aggregation map. -/
def keys_of (m : List (String × Nat)) : List String :=
  m.map Prod.fst

/-- Sum of the values of the aggregation map (also used for the sum of the
amounts of a contribution list). -/
def sum_vals (m : List (String × Nat)) : Nat :=
  (m.map Prod.snd).sum

/-- Sum of the weights of a list of collapsed stacks. -/
def sum_weights (l : List CollapsedStack) : Nat :=
  (l.map CollapsedStack.weight).sum

/-- Lookup in the association-list embedding of the aggregation map. -/
def assoc_find (m : List (String × Nat)) (k : String) : Option Nat :=
  match m with
  | [] => none
  | (k1, v) :: rest => if k1 = k then some v else assoc_find rest k

/-- Replay a list of (path, amount) contributions into the map. -/
def apply_adds (m : List (String × Nat)) (l : List (String × Nat)) :
    List (String × Nat) :=
  l.foldl (fun acc p => entry_add acc p.1 p.2) m

/-- The (path, amount) contributions the step loop makes, in order: one pair
per step with strictly positive gas cost. -/
def step_contribs : List ExecutionStep → List String → List (String × Nat)
  | [], _ => []
  | step :: rest, call_stack =>
    let call_stack1 := reconcile_depth call_stack step.depth
    let pair := (stack_string call_stack1 (op_name step), step.gas_cost)
    (if 0 < step.gas_cost then [pair] else []) ++ step_contribs rest call_stack1

/-- The synthetic path name for one host-interaction kind. -/
def hostio_key (ht : HostIoType) : String :=
  "hostio;" ++ hostio_type_name ht

/-- The host-interaction kinds of a trace with non-zero count, in iteration
order. -/
def hostio_kinds (t : ParsedTrace) : List HostIoType :=
  hostio_type_list.filter fun ht => 0 < t.hostio_stats.count_for_type ht

/-- The (path, amount) contributions `add_hostio_stacks` makes, in order. -/
def hostio_contribs (t : ParsedTrace) : List (String × Nat) :=
  (hostio_kinds t).map fun ht => (hostio_key ht, hostio_weight t ht)

/-- Sum of the strictly positive step gas costs of a step list. -/
def pos_gas_sum_steps (l : List ExecutionStep) : Nat :=
  ((l.filter fun step => 0 < step.gas_cost).map ExecutionStep.gas_cost).sum

/-- Sum of the strictly positive step gas costs of a trace. -/
def pos_gas_sum (t : ParsedTrace) : Nat :=
  pos_gas_sum_steps t.execution_steps

/-- Total apportioned host-interaction gas, with the wrapping `u64` product
actually computed by the code. -/
def hostio_sum (t : ParsedTrace) : Nat :=
  ((hostio_kinds t).map (hostio_weight t)).sum

/-- Total apportioned host-interaction gas as the claim words it, with an
exact (non-wrapping) product. -/
def hostio_spec_sum (t : ParsedTrace) : Nat :=
  ((hostio_kinds t).map fun ht =>
    t.hostio_stats.total_gas * t.hostio_stats.count_for_type ht /
      max t.hostio_stats.total_calls 1).sum

/-- Comparator of `sort_stacks` as a relation: weight of the left operand is
at least the weight of the right one. -/
def weight_ge (a b : CollapsedStack) : Prop :=
  b.weight ≤ a.weight

instance : DecidableRel weight_ge := fun a b => by
  unfold weight_ge
  infer_instance

instance : IsTotal CollapsedStack weight_ge :=
  ⟨fun a b => (Nat.le_total b.weight a.weight).imp (fun h => h) (fun h => h)⟩

instance : IsTrans CollapsedStack weight_ge :=
  ⟨fun _ _ _ h1 h2 => Nat.le_trans h2 h1⟩

instance : IsTotal CollapsedStack hot_path_le := by
  constructor
  intro a b
  rcases Nat.lt_trichotomy a.weight b.weight with h | h | h
  · exact Or.inr (Or.inl h)
  · rcases le_total a.stack b.stack with hs | hs
    · exact Or.inl (Or.inr ⟨h.symm, hs⟩)
    · exact Or.inr (Or.inr ⟨h, hs⟩)
  · exact Or.inl (Or.inl h)

instance : IsTrans CollapsedStack hot_path_le := by
  constructor
  rintro a b c (h1 | ⟨h1, h1s⟩) (h2 | ⟨h2, h2s⟩)
  · exact Or.inl (h2.trans h1)
  · exact Or.inl (h2 ▸ h1)
  · exact Or.inl (h1 ▸ h2)
  · exact Or.inr ⟨h2.trans h1, h1s.trans h2s⟩

instance : IsAntisymm CollapsedStack hot_path_le := by
  constructor
  rintro ⟨sa, wa⟩ ⟨sb, wb⟩ (h1 | ⟨h1, h1s⟩) (h2 | ⟨h2, h2s⟩)
  · exact absurd (h1.trans h2) (lt_irrefl _)
  · exact absurd h1 (h2 ▸ lt_irrefl _)
  · exact absurd h2 (h1 ▸ lt_irrefl _)
  · simp only [CollapsedStack.mk.injEq]
    exact ⟨le_antisymm h1s h2s, h1.symm⟩

/-- Host-interaction statistics with no activity at all. -/
def no_hostio : HostIoStats :=
  ⟨fun _ => 0, 0, 0⟩

/-- The two-step trace of the depth-reconstruction example: depths 0 and 1,
operations "main" and "exec", gas costs 100 and 50, no host interaction. -/
def ex_trace_depth : ParsedTrace :=
  ⟨"0xabc", 150,
   [⟨0, 0, 100, some "main", 0, none⟩, ⟨1, 0, 50, some "exec", 1, none⟩],
   no_hostio⟩

/-- A trace whose two root-level paths "a" and "b" tie at weight 10. -/
def ex_trace_tie : ParsedTrace :=
  ⟨"0xtie", 20,
   [⟨0, 0, 10, some "a", 0, none⟩, ⟨0, 0, 10, some "b", 0, none⟩],
   no_hostio⟩

/-- A trace with one recorded storage-load interaction but zero recorded
host-interaction gas: the apportioned weight of the kind is 0. -/
def ex_trace_zero_hostio : ParsedTrace :=
  ⟨"0xzero", 0, [],
   ⟨fun ht => match ht with | .StorageLoad => 1 | _ => 0, 1, 0⟩⟩

/-- A trace with both step gas and host-interaction gas: the two steps cost
100 and 50, and two storage loads carry 10 units of host-interaction gas. -/
def ex_trace_mixed : ParsedTrace :=
  ⟨"0xmix", 160,
   [⟨0, 0, 100, some "main", 0, none⟩, ⟨1, 0, 50, some "exec", 1, none⟩],
   ⟨fun ht => match ht with | .StorageLoad => 2 | _ => 0, 2, 10⟩⟩

/-- A step object every parser accepts: `{"op": "PUSH1", "gasCost": 3}`. -/
def ex_good_step : JsonValue :=
  .obj [("op", .str "PUSH1"), ("gasCost", .num 3)]

/-- A value no step parser accepts: a bare string. -/
def ex_bad_step : JsonValue :=
  .str "nonsense"

theorem keys_of_entry_add : ∀ (m : List (String × Nat)) (k : String) (v : Nat),
    keys_of (entry_add m k v) =
      if k ∈ keys_of m then keys_of m else keys_of m ++ [k]
  | [], k, v => by simp [keys_of, entry_add]
  | (k1, v1) :: rest, k, v => by
    by_cases hk : k1 = k
    · subst hk
      simp [keys_of, entry_add]
    · have ih := keys_of_entry_add rest k v
      simp only [entry_add, if_neg hk, keys_of, List.map_cons, List.mem_cons] at *
      rw [ih]
      by_cases hmem : k ∈ rest.map Prod.fst
      · simp [hmem, Ne.symm hk]
      · simp [hmem, Ne.symm hk]

theorem nodup_keys_entry_add (m : List (String × Nat)) (k : String) (v : Nat)
    (h : (keys_of m).Nodup) : (keys_of (entry_add m k v)).Nodup := by
  rw [keys_of_entry_add]
  by_cases hmem : k ∈ keys_of m
  · simpa [hmem] using h
  · rw [if_neg hmem]
    refine h.append (List.nodup_singleton k) ?_
    intro a ha hak
    rw [List.mem_singleton] at hak
    exact hmem (hak ▸ ha)

theorem assoc_find_entry_add_self : ∀ (m : List (String × Nat)) (k : String) (v : Nat),
    assoc_find (entry_add m k v) k = some (((assoc_find m k).getD 0 + v) % U64)
  | [], k, v => by simp [assoc_find, entry_add]
  | (k1, v1) :: rest, k, v => by
    by_cases hk : k1 = k
    · subst hk
      simp [assoc_find, entry_add]
    · have ih := assoc_find_entry_add_self rest k v
      simp [assoc_find, entry_add, hk, ih]

theorem assoc_find_entry_add_ne : ∀ (m : List (String × Nat)) (k k1 : String) (v : Nat),
    k1 ≠ k → assoc_find (entry_add m k v) k1 = assoc_find m k1
  | [], k, k1, v, hne => by simp [assoc_find, entry_add, Ne.symm hne]
  | (k2, v2) :: rest, k, k1, v, hne => by
    by_cases hk : k2 = k
    · have h2 : ¬ k2 = k1 := fun h => hne (h.symm.trans hk)
      simp [assoc_find, entry_add, hk, h2, Ne.symm hne]
    · have ih := assoc_find_entry_add_ne rest k k1 v hne
      by_cases hk1 : k2 = k1
      · simp [assoc_find, entry_add, hk, hk1, hne]
      · simp [assoc_find, entry_add, hk, hk1, ih]

theorem assoc_find_getD_le_sum_vals : ∀ (m : List (String × Nat)) (k : String),
    (assoc_find m k).getD 0 ≤ sum_vals m
  | [], k => by simp [assoc_find, sum_vals]
  | (k1, v1) :: rest, k => by
    by_cases hk : k1 = k
    · simp [assoc_find, sum_vals, hk, Nat.le_add_right]
    · have ih := assoc_find_getD_le_sum_vals rest k
      simp only [assoc_find, sum_vals, if_neg hk, List.map_cons, List.sum_cons]
      exact ih.trans (Nat.le_add_left _ _)

theorem sum_vals_entry_add : ∀ (m : List (String × Nat)) (k : String) (v : Nat),
    (assoc_find m k).getD 0 + v < U64 →
    sum_vals (entry_add m k v) = sum_vals m + v
  | [], k, v, hb => by
    simp only [assoc_find, Option.getD_none, Nat.zero_add] at hb
    simp [sum_vals, entry_add, Nat.mod_eq_of_lt hb]
  | (k1, v1) :: rest, k, v, hb => by
    by_cases hk : k1 = k
    · simp only [assoc_find, if_pos hk, Option.getD_some] at hb
      simp only [entry_add, if_pos hk, sum_vals, List.map_cons, List.sum_cons]
      rw [Nat.mod_eq_of_lt hb]
      omega
    · simp only [assoc_find, if_neg hk] at hb
      have ih := sum_vals_entry_add rest k v hb
      simp only [entry_add, if_neg hk, sum_vals, List.map_cons, List.sum_cons] at *
      omega

theorem vals_pos_entry_add : ∀ (m : List (String × Nat)) (k : String) (v : Nat),
    (∀ p ∈ m, 0 < p.2) → 0 < v → (assoc_find m k).getD 0 + v < U64 →
    ∀ p ∈ entry_add m k v, 0 < p.2
  | [], k, v, _, hv, hb, p, hp => by
    simp only [assoc_find, Option.getD_none, Nat.zero_add] at hb
    simp only [entry_add, List.mem_singleton] at hp
    subst hp
    simpa [Nat.mod_eq_of_lt hb] using hv
  | (k1, v1) :: rest, k, v, hm, hv, hb, p, hp => by
    by_cases hk : k1 = k
    · simp only [assoc_find, if_pos hk, Option.getD_some] at hb
      simp only [entry_add, if_pos hk, List.mem_cons] at hp
      rcases hp with hp | hp
      · subst hp
        simpa [Nat.mod_eq_of_lt hb] using Nat.lt_of_lt_of_le hv (Nat.le_add_left _ _)
      · exact hm p (List.mem_cons_of_mem _ hp)
    · simp only [assoc_find, if_neg hk] at hb
      simp only [entry_add, if_neg hk, List.mem_cons] at hp
      rcases hp with hp | hp
      · subst hp
        exact hm (k1, v1) (List.mem_cons_self _ _)
      · exact vals_pos_entry_add rest k v (fun q hq => hm q (List.mem_cons_of_mem _ hq))
          hv hb p hp

theorem apply_adds_nil (m : List (String × Nat)) : apply_adds m [] = m := rfl

theorem apply_adds_cons (m : List (String × Nat)) (p : String × Nat)
    (l : List (String × Nat)) :
    apply_adds m (p :: l) = apply_adds (entry_add m p.1 p.2) l := rfl

theorem apply_adds_append (m : List (String × Nat)) (l1 l2 : List (String × Nat)) :
    apply_adds m (l1 ++ l2) = apply_adds (apply_adds m l1) l2 := by
  simp [apply_adds, List.foldl_append]

theorem nodup_keys_apply_adds : ∀ (l m : List (String × Nat)),
    (keys_of m).Nodup → (keys_of (apply_adds m l)).Nodup
  | [], _, h => h
  | p :: l, m, h =>
    nodup_keys_apply_adds l (entry_add m p.1 p.2) (nodup_keys_entry_add m p.1 p.2 h)

theorem sum_vals_apply_adds : ∀ (l m : List (String × Nat)),
    sum_vals m + sum_vals l < U64 →
    sum_vals (apply_adds m l) = sum_vals m + sum_vals l
  | [], m, _ => by simp [apply_adds, sum_vals]
  | (k, v) :: l, m, hb => by
    have hsum : sum_vals ((k, v) :: l) = v + sum_vals l := by
      simp [sum_vals]
    have hfind : (assoc_find m k).getD 0 + v < U64 := by
      have := assoc_find_getD_le_sum_vals m k
      omega
    have hstep := sum_vals_entry_add m k v hfind
    rw [apply_adds_cons]
    rw [sum_vals_apply_adds l (entry_add m k v) (by rw [hstep]; omega)]
    omega

theorem vals_pos_apply_adds : ∀ (l m : List (String × Nat)),
    (∀ p ∈ m, 0 < p.2) → (∀ p ∈ l, 0 < p.2) →
    sum_vals m + sum_vals l < U64 →
    ∀ p ∈ apply_adds m l, 0 < p.2
  | [], m, hm, _, _, p, hp => hm p hp
  | (k, v) :: l, m, hm, hl, hb, p, hp => by
    have hsum : sum_vals ((k, v) :: l) = v + sum_vals l := by
      simp [sum_vals]
    have hfind : (assoc_find m k).getD 0 + v < U64 := by
      have := assoc_find_getD_le_sum_vals m k
      omega
    have hv : 0 < v := hl (k, v) (List.mem_cons_self _ _)
    have hstep := sum_vals_entry_add m k v hfind
    rw [apply_adds_cons] at hp
    exact vals_pos_apply_adds l (entry_add m k v)
      (vals_pos_entry_add m k v hm hv hfind)
      (fun q hq => hl q (List.mem_cons_of_mem _ hq))
      (by rw [hstep]; omega) p hp

theorem assoc_find_apply_adds_absent : ∀ (l m : List (String × Nat)) (k : String),
    (∀ p ∈ l, p.1 ≠ k) → assoc_find (apply_adds m l) k = assoc_find m k
  | [], m, k, _ => rfl
  | (k1, v) :: l, m, k, h => by
    rw [apply_adds_cons]
    rw [assoc_find_apply_adds_absent l (entry_add m k1 v) k
      (fun q hq => h q (List.mem_cons_of_mem _ hq))]
    exact assoc_find_entry_add_ne m k1 k v
      (fun he => h (k1, v) (List.mem_cons_self _ _) (he ▸ rfl))

theorem process_steps_eq_apply_adds :
    ∀ (l : List ExecutionStep) (call_stack : List String) (m : List (String × Nat)),
    process_steps l call_stack m = apply_adds m (step_contribs l call_stack)
  | [], _, m => rfl
  | step :: rest, call_stack, m => by
    simp only [process_steps, step_contribs]
    by_cases hg : 0 < step.gas_cost
    · rw [if_pos hg, if_pos hg, process_steps_eq_apply_adds rest _ _]
      rfl
    · rw [if_neg hg, if_neg hg, process_steps_eq_apply_adds rest _ _]
      rfl

theorem sum_vals_step_contribs :
    ∀ (l : List ExecutionStep) (call_stack : List String),
    sum_vals (step_contribs l call_stack) = pos_gas_sum_steps l
  | [], _ => rfl
  | step :: rest, call_stack => by
    have ih := sum_vals_step_contribs rest (reconcile_depth call_stack step.depth)
    by_cases hg : 0 < step.gas_cost
    · have h1 : step_contribs (step :: rest) call_stack =
          (stack_string (reconcile_depth call_stack step.depth) (op_name step),
            step.gas_cost) :: step_contribs rest (reconcile_depth call_stack step.depth) := by
        simp [step_contribs, hg]
      have h2 : pos_gas_sum_steps (step :: rest) =
          step.gas_cost + pos_gas_sum_steps rest := by
        simp [pos_gas_sum_steps, List.filter_cons, hg]
      rw [h1, h2, ← ih]
      simp [sum_vals]
    · have h1 : step_contribs (step :: rest) call_stack =
          step_contribs rest (reconcile_depth call_stack step.depth) := by
        simp [step_contribs, hg]
      have h2 : pos_gas_sum_steps (step :: rest) = pos_gas_sum_steps rest := by
        simp [pos_gas_sum_steps, List.filter_cons, hg]
      rw [h1, h2, ih]

theorem foldl_hostio_eq_apply_adds (t : ParsedTrace) :
    ∀ (kinds : List HostIoType) (m : List (String × Nat)),
    kinds.foldl
      (fun acc ht =>
        if 0 < t.hostio_stats.count_for_type ht then
          entry_add acc ("hostio;" ++ hostio_type_name ht) (hostio_weight t ht)
        else acc) m =
    apply_adds m
      ((kinds.filter fun ht => 0 < t.hostio_stats.count_for_type ht).map
        fun ht => (hostio_key ht, hostio_weight t ht))
  | [], m => rfl
  | ht :: kinds, m => by
    by_cases hc : 0 < t.hostio_stats.count_for_type ht
    · have h2 : ((ht :: kinds).filter fun x => 0 < t.hostio_stats.count_for_type x) =
          ht :: (kinds.filter fun x => 0 < t.hostio_stats.count_for_type x) := by
        simp [List.filter_cons, hc]
      rw [h2, List.map_cons, List.foldl_cons, if_pos hc,
        foldl_hostio_eq_apply_adds t kinds _]
      rfl
    · have h2 : ((ht :: kinds).filter fun x => 0 < t.hostio_stats.count_for_type x) =
          kinds.filter fun x => 0 < t.hostio_stats.count_for_type x := by
        simp [List.filter_cons, hc]
      rw [h2, List.foldl_cons, if_neg hc]
      exact foldl_hostio_eq_apply_adds t kinds m

theorem add_hostio_stacks_eq_apply_adds (m : List (String × Nat)) (t : ParsedTrace) :
    add_hostio_stacks m t = apply_adds m (hostio_contribs t) := by
  unfold add_hostio_stacks hostio_contribs hostio_kinds
  exact foldl_hostio_eq_apply_adds t hostio_type_list m

theorem sum_vals_hostio_contribs (t : ParsedTrace) :
    sum_vals (hostio_contribs t) = hostio_sum t := by
  simp only [hostio_contribs, hostio_sum, sum_vals, List.map_map]
  rfl

theorem final_stack_map_eq (t : ParsedTrace) :
    final_stack_map t =
      apply_adds (apply_adds [] (step_contribs t.execution_steps []))
        (hostio_contribs t) := by
  unfold final_stack_map
  rw [process_steps_eq_apply_adds, add_hostio_stacks_eq_apply_adds]

theorem sort_stacks_perm (l : List CollapsedStack) : (sort_stacks l).Perm l :=
  List.perm_insertionSort _ l

theorem sort_stacks_sorted (l : List CollapsedStack) :
    List.Pairwise weight_ge (sort_stacks l) :=
  List.sorted_insertionSort weight_ge l

theorem sum_vals_perm {l1 l2 : List (String × Nat)} (h : l1.Perm l2) :
    sum_vals l1 = sum_vals l2 :=
  (h.map Prod.snd).sum_eq

theorem sum_weights_build_from (order : List (String × Nat)) :
    sum_weights (build_collapsed_stacks_from order) = sum_vals order := by
  unfold build_collapsed_stacks_from sum_weights
  rw [((sort_stacks_perm _).map CollapsedStack.weight).sum_eq]
  rw [List.map_map]
  rfl

theorem nodup_stacks_build_from (order : List (String × Nat))
    (h : (keys_of order).Nodup) :
    ((build_collapsed_stacks_from order).map CollapsedStack.stack).Nodup := by
  unfold build_collapsed_stacks_from
  rw [((sort_stacks_perm _).map CollapsedStack.stack).nodup_iff]
  simpa [List.map_map, Function.comp, keys_of] using h

theorem nodup_keys_final_stack_map (t : ParsedTrace) :
    (keys_of (final_stack_map t)).Nodup := by
  rw [final_stack_map_eq]
  exact nodup_keys_apply_adds _ _ (nodup_keys_apply_adds _ _ (by simp [keys_of]))

theorem sum_vals_final_stack_map (t : ParsedTrace)
    (hb : pos_gas_sum t + hostio_sum t < U64) :
    sum_vals (final_stack_map t) = pos_gas_sum t + hostio_sum t := by
  rw [final_stack_map_eq]
  have h1 : sum_vals (step_contribs t.execution_steps []) = pos_gas_sum t :=
    sum_vals_step_contribs _ _
  have h2 : sum_vals (hostio_contribs t) = hostio_sum t := sum_vals_hostio_contribs t
  have hz : sum_vals ([] : List (String × Nat)) = 0 := rfl
  have e1 : sum_vals (apply_adds [] (step_contribs t.execution_steps [])) = pos_gas_sum t := by
    rw [sum_vals_apply_adds _ _ (by rw [hz, h1]; omega), hz, h1]
    omega
  rw [sum_vals_apply_adds _ _ (by rw [e1, h2]; omega), e1, h2]

theorem hostio_sum_eq_spec_sum (t : ParsedTrace)
    (hmul : ∀ ht : HostIoType, 0 < t.hostio_stats.count_for_type ht →
      t.hostio_stats.total_gas * t.hostio_stats.count_for_type ht < U64) :
    hostio_sum t = hostio_spec_sum t := by
  unfold hostio_sum hostio_spec_sum
  refine congrArg List.sum (List.map_congr_left ?_)
  intro ht hht
  have hc : 0 < t.hostio_stats.count_for_type ht := by
    have := (List.mem_filter.mp hht).2
    simpa using this
  unfold hostio_weight
  rw [Nat.mod_eq_of_lt (hmul ht hc)]

/-- Claim C1: for every `ParsedTrace` (and every hash-map iteration order),
the weights of the collapsed stacks returned by `build_collapsed_stacks` sum
to the sum of the strictly positive step gas costs plus the total apportioned
host-interaction gas, and no path string occurs twice in the result.  Stated
under the no-overflow side conditions of exact `u64` arithmetic: every
per-kind product `total_hostio_gas * kind_count` and the grand total fit in a
`u64`. -/
theorem claim_C1_conservation (t : ParsedTrace) (order : List (String × Nat))
    (horder : order.Perm (final_stack_map t))
    (hmul : ∀ ht : HostIoType, 0 < t.hostio_stats.count_for_type ht →
      t.hostio_stats.total_gas * t.hostio_stats.count_for_type ht < U64)
    (htotal : pos_gas_sum t + hostio_spec_sum t < U64) :
    sum_weights (build_collapsed_stacks_from order) = pos_gas_sum t + hostio_spec_sum t ∧
    ((build_collapsed_stacks_from order).map CollapsedStack.stack).Nodup := by
  have hs := hostio_sum_eq_spec_sum t hmul
  constructor
  · rw [sum_weights_build_from, sum_vals_perm horder,
      sum_vals_final_stack_map t (by omega), hs]
  · refine nodup_stacks_build_from order ?_
    have := nodup_keys_final_stack_map t
    exact ((horder.map Prod.fst).nodup_iff).mpr this

/-- Witness for C1 at a concrete mixed trace: two steps costing 100 and 50,
two storage loads apportioning 10 units of host-interaction gas. -/
theorem claim_C1_conservation_witness :
    sum_weights (build_collapsed_stacks ex_trace_mixed) =
      pos_gas_sum ex_trace_mixed + hostio_spec_sum ex_trace_mixed ∧
    ((build_collapsed_stacks ex_trace_mixed).map CollapsedStack.stack).Nodup :=
  claim_C1_conservation ex_trace_mixed (final_stack_map ex_trace_mixed)
    (List.Perm.refl _)
    (by intro ht hc; cases ht <;> simp_all [ex_trace_mixed, HostIoStats.count_for_type, U64])
    (by decide)

/-- Counterexample to claim C2: on the trace with depths 0 and 1, operations
"main" and "exec" and gas costs 100 and 50, the aggregation does not produce
the path "main;exec" claimed by the spec example: the placeholder frame
pushed on a depth increase is the literal "call", and the parent operation
name is never recorded, so the paths are "main" (100) and "call;exec" (50).
The aggregation map determines every run of `build_collapsed_stacks` up to
permutation, so no run contains "main;exec". -/
theorem claim_C2_counterexample :
    build_collapsed_stacks ex_trace_depth =
      [CollapsedStack.mk "main" 100, CollapsedStack.mk "call;exec" 50] ∧
    "main;exec" ∉ (final_stack_map ex_trace_depth).map Prod.fst := by
  decide

/-- Claim C2 as amended: the example trace yields exactly the paths "main"
with weight 100 and "call;exec" with weight 50; in general, depth
reconciliation truncates the frame stack to the step depth when the depth is
smaller than the stack length, appends literal "call" placeholder frames
until the length equals the depth when it is larger, and always leaves the
stack with length equal to the step depth. -/
theorem claim_C2_depth_reconstruction :
    (build_collapsed_stacks ex_trace_depth =
      [CollapsedStack.mk "main" 100, CollapsedStack.mk "call;exec" 50]) ∧
    (∀ (call_stack : List String) (d : Nat),
      (d < call_stack.length → reconcile_depth call_stack d = call_stack.take d) ∧
      (call_stack.length ≤ d →
        reconcile_depth call_stack d =
          call_stack ++ List.replicate (d - call_stack.length) "call") ∧
      (reconcile_depth call_stack d).length = d) := by
  constructor
  · decide
  · intro call_stack d
    refine ⟨?_, ?_, ?_⟩
    · intro h
      simp only [reconcile_depth, if_pos h]
      have hlen : (call_stack.take d).length = d := by
        rw [List.length_take]
        omega
      rw [hlen]
      simp
    · intro h
      simp only [reconcile_depth, if_neg (by omega : ¬ d < call_stack.length)]
    · by_cases h : d < call_stack.length
      · simp only [reconcile_depth, if_pos h]
        simp only [List.length_append, List.length_take, List.length_replicate]
        omega
      · simp only [reconcile_depth, if_neg h]
        simp only [List.length_append, List.length_replicate]
        omega

/-- Witness for the general part of the amended C2 at concrete inputs: a
two-frame stack truncated to depth 1 and extended to depth 4. -/
theorem claim_C2_depth_reconstruction_witness :
    reconcile_depth ["a", "b"] 1 = ["a"] ∧
    reconcile_depth ["a", "b"] 4 = ["a", "b", "call", "call"] :=
  ⟨((claim_C2_depth_reconstruction.2 ["a", "b"] 1).1 (by decide)).trans (by decide),
   ((claim_C2_depth_reconstruction.2 ["a", "b"] 4).2.1 (by decide)).trans (by decide)⟩

/-- Counterexample to claim C3: on a trace whose two paths "a" and "b" tie at
weight 10, two admissible hash-map iteration orders (both permutations of the
aggregation map) lead `build_collapsed_stacks` to different output sequences,
because the sort compares weights only and the tie order is inherited from
the nondeterministic map iteration. -/
theorem claim_C3_counterexample :
    ([(("a" : String), (10 : Nat)), ("b", 10)]).Perm (final_stack_map ex_trace_tie) ∧
    ([(("b" : String), (10 : Nat)), ("a", 10)]).Perm (final_stack_map ex_trace_tie) ∧
    build_collapsed_stacks_from [("a", 10), ("b", 10)] ≠
      build_collapsed_stacks_from [("b", 10), ("a", 10)] := by
  decide

/-- Claim C3 as amended: any two runs of `build_collapsed_stacks` on the same
`ParsedTrace` produce the same multiset of collapsed stacks, each run sorted
by non-increasing weight — only the relative order of equal-weight entries
may differ between runs; and the ranker (modelled from the spec with its
weight-descending, path-ascending tie break) is a function of the weighted
path multiset: permuting its input does not change its output. -/
theorem claim_C3_determinism :
    (∀ (t : ParsedTrace) (o1 o2 : List (String × Nat)),
      o1.Perm (final_stack_map t) → o2.Perm (final_stack_map t) →
      (build_collapsed_stacks_from o1).Perm (build_collapsed_stacks_from o2) ∧
      List.Pairwise weight_ge (build_collapsed_stacks_from o1)) ∧
    (∀ (ps qs : List CollapsedStack) (total_gas top_n : Nat), ps.Perm qs →
      calculate_hot_paths ps total_gas top_n = calculate_hot_paths qs total_gas top_n) := by
  constructor
  · intro t o1 o2 h1 h2
    refine ⟨?_, sort_stacks_sorted _⟩
    unfold build_collapsed_stacks_from
    exact ((sort_stacks_perm _).trans ((h1.trans h2.symm).map _)).trans
      (sort_stacks_perm _).symm
  · intro ps qs total_gas top_n h
    have hsort : List.insertionSort hot_path_le ps = List.insertionSort hot_path_le qs :=
      List.eq_of_perm_of_sorted
        ((List.perm_insertionSort _ ps).trans (h.trans (List.perm_insertionSort _ qs).symm))
        (List.sorted_insertionSort _ _) (List.sorted_insertionSort _ _)
    unfold calculate_hot_paths
    rw [hsort]

/-- Witness for the amended C3: the tied trace, with the canonical order and
a transposed order, and a small concrete ranking input. -/
theorem claim_C3_determinism_witness :
    (build_collapsed_stacks ex_trace_tie).Perm
      (build_collapsed_stacks_from [("b", 10), ("a", 10)]) ∧
    calculate_hot_paths [CollapsedStack.mk "y" 7, CollapsedStack.mk "x" 7] 14 5 =
      calculate_hot_paths [CollapsedStack.mk "x" 7, CollapsedStack.mk "y" 7] 14 5 :=
  ⟨(claim_C3_determinism.1 ex_trace_tie (final_stack_map ex_trace_tie)
      [("b", 10), ("a", 10)] (List.Perm.refl _) (by decide)).1,
   claim_C3_determinism.2 _ _ 14 5 (List.Perm.swap _ _ _)⟩

theorem parse_steps_loop_eq : ∀ (l : List JsonValue) (acc : List ExecutionStep),
    parse_steps_loop l acc = acc ++ l.filterMap parse_execution_step
  | [], acc => by simp [parse_steps_loop]
  | j :: l, acc => by
    cases hj : parse_execution_step j with
    | some step =>
      simp only [parse_steps_loop, hj, List.filterMap_cons]
      rw [parse_steps_loop_eq l (acc ++ [step])]
      simp
    | none =>
      simp only [parse_steps_loop, hj, List.filterMap_cons]
      exact parse_steps_loop_eq l acc

/-- Claim C4: on a non-empty step array in which every element fails to parse
as an `ExecutionStep`, `parse_steps_array` fails with `InvalidFormat` (and
`parse_trace`, which calls it through `extract_execution_steps` and
propagates its error with `?`, fails the same way); when at least one element
parses, it succeeds and returns exactly the successfully parsed steps as a
subsequence in their original order. -/
theorem claim_C4_malformed_steps (arr : List JsonValue) (hne : arr ≠ []) :
    ((∀ j ∈ arr, parse_execution_step j = none) →
      parse_steps_array arr =
        .error (.InvalidFormat "All execution steps failed to parse")) ∧
    ((∃ j ∈ arr, (parse_execution_step j).isSome) →
      parse_steps_array arr = .ok (arr.filterMap parse_execution_step)) := by
  constructor
  · intro hall
    have hnil : arr.filterMap parse_execution_step = [] :=
      List.filterMap_eq_nil_iff.mpr hall
    unfold parse_steps_array
    rw [parse_steps_loop_eq, List.nil_append, hnil]
    simp [hne]
  · rintro ⟨j, hj, hsome⟩
    have hne2 : arr.filterMap parse_execution_step ≠ [] := by
      intro h0
      rw [List.filterMap_eq_nil_iff] at h0
      rw [h0 j hj] at hsome
      simp at hsome
    unfold parse_steps_array
    rw [parse_steps_loop_eq, List.nil_append]
    simp [hne2]

/-- Witness for C4: a singleton all-malformed array fails; an array with one
malformed and one valid element succeeds with just the valid step. -/
theorem claim_C4_malformed_steps_witness :
    parse_steps_array [ex_bad_step] =
      .error (.InvalidFormat "All execution steps failed to parse") ∧
    parse_steps_array [ex_bad_step, ex_good_step] =
      .ok ([ex_bad_step, ex_good_step].filterMap parse_execution_step) :=
  ⟨(claim_C4_malformed_steps [ex_bad_step] (by simp)).1
      (by intro j hj; rw [List.mem_singleton] at hj; subst hj; rfl),
   (claim_C4_malformed_steps [ex_bad_step, ex_good_step] (by simp)).2
      ⟨ex_good_step, by simp, rfl⟩⟩

/-- Counterexample to claim C5: the object containing only the gas alias
"total_gas" is accepted by the claimed alias set but rejected by
`validate_trace_format`, whose checks omit the aliases "total_gas" and
"struct_logs" even though `extract_total_gas` and `extract_execution_steps`
accept them during full parsing. -/
theorem claim_C5_counterexample :
    spec_claimed_valid (.obj [("total_gas", .num 5)]) = true ∧
    validate_trace_format (.obj [("total_gas", .num 5)]) =
      .error (.InvalidFormat "Trace does not contain expected fields (gas or steps)") :=
  ⟨rfl, rfl⟩

/-- Claim C5 as amended: `validate_trace_format` accepts exactly the JSON
objects containing at least one gas field under the aliases `gasUsed`,
`gas_used`, `totalGas` (not `total_gas`) or at least one step-list field
under the aliases `structLogs`, `steps`, `trace` (not `struct_logs`); every
other object and every non-object value is rejected with `InvalidFormat`. -/
theorem claim_C5_validate_exact (j : JsonValue) :
    validate_trace_format j = .ok () ↔
      ∃ fields, j = .obj fields ∧
        (contains_key fields "gasUsed" || contains_key fields "gas_used" ||
         contains_key fields "totalGas" || contains_key fields "structLogs" ||
         contains_key fields "steps" || contains_key fields "trace") = true := by
  cases j with
  | obj fields =>
    constructor
    · intro h
      refine ⟨fields, rfl, ?_⟩
      by_contra hno
      have hno6 :
          (contains_key fields "gasUsed" || contains_key fields "gas_used" ||
           contains_key fields "totalGas" || contains_key fields "structLogs" ||
           contains_key fields "steps" || contains_key fields "trace") = false := by
        revert hno
        cases (contains_key fields "gasUsed" || contains_key fields "gas_used" ||
           contains_key fields "totalGas" || contains_key fields "structLogs" ||
           contains_key fields "steps" || contains_key fields "trace") <;> simp
      simp only [validate_trace_format] at h
      rw [if_pos] at h
      · exact Except.noConfusion h
      · simp only [Bool.or_eq_false_iff] at hno6
        simp [hno6.1.1.1, hno6.1.1.2, hno6.1.2, hno6.2]
    · rintro ⟨fields2, heq, hcond⟩
      cases heq
      simp only [validate_trace_format]
      rw [if_neg]
      intro hcontra
      simp only [Bool.and_eq_true, Bool.not_eq_true'] at hcontra
      simp only [Bool.or_eq_false_iff] at hcontra
      simp [hcontra.1.1, hcontra.1.2, hcontra.2.1, hcontra.2.2] at hcond
  | null => simp [validate_trace_format]
  | bool b => simp [validate_trace_format]
  | num n => simp [validate_trace_format]
  | str s => simp [validate_trace_format]
  | arr elems => simp [validate_trace_format]

theorem assoc_find_hostio_fold (t : ParsedTrace) :
    ∀ (kinds : List HostIoType) (m : List (String × Nat)) (ht : HostIoType),
    (kinds.map hostio_key).Nodup → ht ∈ kinds →
    assoc_find
      (apply_adds m
        ((kinds.filter fun x => 0 < t.hostio_stats.count_for_type x).map
          fun x => (hostio_key x, hostio_weight t x)))
      (hostio_key ht) =
      (if 0 < t.hostio_stats.count_for_type ht then
        some (((assoc_find m (hostio_key ht)).getD 0 + hostio_weight t ht) % U64)
      else assoc_find m (hostio_key ht))
  | [], _, ht, _, hmem => absurd hmem (List.not_mem_nil ht)
  | a :: kinds, m, ht, hnd, hmem => by
    have hnd1 : hostio_key a ∉ kinds.map hostio_key := (List.nodup_cons.mp hnd).1
    have hnd2 : (kinds.map hostio_key).Nodup := (List.nodup_cons.mp hnd).2
    by_cases ha : a = ht
    · subst ha
      have habsent : ∀ p ∈ ((kinds.filter fun x =>
          0 < t.hostio_stats.count_for_type x).map
            fun x => (hostio_key x, hostio_weight t x)), p.1 ≠ hostio_key a := by
        rintro p hp
        rw [List.mem_map] at hp
        obtain ⟨x, hx, rfl⟩ := hp
        intro hxk
        exact hnd1 (hxk ▸ List.mem_map_of_mem hostio_key (List.mem_of_mem_filter hx))
      by_cases hc : 0 < t.hostio_stats.count_for_type a
      · have hf : ((a :: kinds).filter fun x => 0 < t.hostio_stats.count_for_type x) =
            a :: (kinds.filter fun x => 0 < t.hostio_stats.count_for_type x) := by
          simp [List.filter_cons, hc]
        rw [hf, List.map_cons, apply_adds_cons, if_pos hc,
          assoc_find_apply_adds_absent _ _ _ habsent]
        exact assoc_find_entry_add_self m (hostio_key a) (hostio_weight t a)
      · have hf : ((a :: kinds).filter fun x => 0 < t.hostio_stats.count_for_type x) =
            kinds.filter fun x => 0 < t.hostio_stats.count_for_type x := by
          simp [List.filter_cons, hc]
        rw [hf, if_neg hc]
        exact assoc_find_apply_adds_absent _ _ _ habsent
    · have hmem2 : ht ∈ kinds := by
        rcases List.mem_cons.mp hmem with h | h
        · exact absurd h.symm ha
        · exact h
      have hkey_ne : hostio_key a ≠ hostio_key ht := by
        intro h
        exact hnd1 (h ▸ List.mem_map_of_mem hostio_key hmem2)
      by_cases hc : 0 < t.hostio_stats.count_for_type a
      · have hf : ((a :: kinds).filter fun x => 0 < t.hostio_stats.count_for_type x) =
            a :: (kinds.filter fun x => 0 < t.hostio_stats.count_for_type x) := by
          simp [List.filter_cons, hc]
        rw [hf, List.map_cons, apply_adds_cons]
        rw [assoc_find_hostio_fold t kinds _ ht hnd2 hmem2]
        rw [assoc_find_entry_add_ne m (hostio_key a) (hostio_key ht) _ (Ne.symm hkey_ne)]
      · have hf : ((a :: kinds).filter fun x => 0 < t.hostio_stats.count_for_type x) =
            kinds.filter fun x => 0 < t.hostio_stats.count_for_type x := by
          simp [List.filter_cons, hc]
        rw [hf]
        exact assoc_find_hostio_fold t kinds m ht hnd2 hmem2

/-- Claim C6: for every trace and aggregation map, a host-interaction kind
with non-zero count accumulates into the entry `hostio;<kind>` exactly the
weight `total_hostio_gas * kind_count % 2^64 / max(total_hostio_calls, 1)`
(wrapping multiplication, flooring division), and a kind with count zero
leaves its entry untouched (in particular, starting from a map without that
path, none is emitted). -/
theorem claim_C6_hostio_apportionment (t : ParsedTrace) (m : List (String × Nat))
    (ht : HostIoType) :
    (0 < t.hostio_stats.count_for_type ht →
      assoc_find (add_hostio_stacks m t) (hostio_key ht) =
        some (((assoc_find m (hostio_key ht)).getD 0 +
          t.hostio_stats.total_gas * t.hostio_stats.count_for_type ht % U64 /
            max t.hostio_stats.total_calls 1) % U64)) ∧
    (t.hostio_stats.count_for_type ht = 0 →
      assoc_find (add_hostio_stacks m t) (hostio_key ht) =
        assoc_find m (hostio_key ht)) := by
  have hnd : (hostio_type_list.map hostio_key).Nodup := by decide
  have hmem : ht ∈ hostio_type_list := by cases ht <;> decide
  have h := assoc_find_hostio_fold t hostio_type_list m ht hnd hmem
  rw [add_hostio_stacks_eq_apply_adds]
  unfold hostio_contribs hostio_kinds
  constructor
  · intro hc
    rw [h, if_pos hc]
    rfl
  · intro hc
    rw [h, if_neg (by omega)]

/-- Witness for C6 on the mixed trace: the storage-load kind (count 2, total
gas 10, 2 calls) accumulates weight 10; the call kind (count 0) leaves the
map unchanged. -/
theorem claim_C6_hostio_apportionment_witness :
    assoc_find (add_hostio_stacks [] ex_trace_mixed) (hostio_key .StorageLoad) =
      some (((assoc_find [] (hostio_key .StorageLoad)).getD 0 +
        ex_trace_mixed.hostio_stats.total_gas *
          ex_trace_mixed.hostio_stats.count_for_type .StorageLoad % U64 /
          max ex_trace_mixed.hostio_stats.total_calls 1) % U64) ∧
    assoc_find (add_hostio_stacks [] ex_trace_mixed) (hostio_key .Call) =
      assoc_find [] (hostio_key .Call) :=
  ⟨(claim_C6_hostio_apportionment ex_trace_mixed [] .StorageLoad).1 (by decide),
   (claim_C6_hostio_apportionment ex_trace_mixed [] .Call).2 (by decide)⟩

theorem sum_weights_filter_split (threshold : Nat) : ∀ (l : List CollapsedStack),
    sum_weights (l.filter fun s => threshold ≤ s.weight) +
      sum_weights (l.filter fun s => s.weight < threshold) = sum_weights l
  | [] => rfl
  | s :: l => by
    have ih := sum_weights_filter_split threshold l
    have hcons : sum_weights (s :: l) = s.weight + sum_weights l := by
      simp [sum_weights]
    by_cases h : threshold ≤ s.weight
    · have hps : decide (threshold ≤ s.weight) = true := decide_eq_true h
      have hns : decide (s.weight < threshold) = false :=
        decide_eq_false (by omega)
      rw [List.filter_cons, List.filter_cons, if_pos hps, if_neg (by simp [hns])]
      have h3 : sum_weights (s :: (l.filter fun x => threshold ≤ x.weight)) =
          s.weight + sum_weights (l.filter fun x => threshold ≤ x.weight) := by
        simp [sum_weights]
      rw [h3, hcons]
      omega
    · have hps : decide (threshold ≤ s.weight) = false := decide_eq_false h
      have hns : decide (s.weight < threshold) = true :=
        decide_eq_true (by omega)
      rw [List.filter_cons, List.filter_cons, if_neg (by simp [hps]), if_pos hns]
      have h3 : sum_weights (s :: (l.filter fun x => x.weight < threshold)) =
          s.weight + sum_weights (l.filter fun x => x.weight < threshold) := by
        simp [sum_weights]
      rw [h3, hcons]
      omega

theorem merge_foldl_eq (threshold : Nat) : ∀ (l : List CollapsedStack)
    (acc : List CollapsedStack × Nat), acc.2 + sum_weights l < U64 →
    l.foldl (merge_step threshold) acc =
      (acc.1 ++ l.filter (fun s => threshold ≤ s.weight),
       acc.2 + sum_weights (l.filter fun s => s.weight < threshold))
  | [], acc, _ => by simp [sum_weights]
  | s :: l, acc, hb => by
    have hcons : sum_weights (s :: l) = s.weight + sum_weights l := by
      simp [sum_weights]
    by_cases h : threshold ≤ s.weight
    · have hps : decide (threshold ≤ s.weight) = true := decide_eq_true h
      have hns : decide (s.weight < threshold) = false :=
        decide_eq_false (by omega)
      have ih := merge_foldl_eq threshold l (acc.1 ++ [s], acc.2) (by omega)
      simp only [List.foldl_cons, merge_step, if_pos h] at ih ⊢
      rw [ih, List.filter_cons, List.filter_cons, if_pos hps, if_neg (by simp [hns])]
      simp
    · have hps : decide (threshold ≤ s.weight) = false := decide_eq_false h
      have hns : decide (s.weight < threshold) = true :=
        decide_eq_true (by omega)
      have hmod : (acc.2 + s.weight) % U64 = acc.2 + s.weight :=
        Nat.mod_eq_of_lt (by omega)
      have ih := merge_foldl_eq threshold l (acc.1, (acc.2 + s.weight) % U64)
        (by rw [hmod]; omega)
      simp only [List.foldl_cons, merge_step, if_neg h] at ih ⊢
      rw [ih, hmod, List.filter_cons, List.filter_cons, if_neg (by simp [hps]),
        if_pos hns]
      have h3 : sum_weights (s :: (l.filter fun x => x.weight < threshold)) =
          s.weight + sum_weights (l.filter fun x => x.weight < threshold) := by
        simp [sum_weights]
      rw [h3, Nat.add_assoc]

/-- Claim C7: `merge_small_stacks` conserves weight for every input list and
threshold (stated under the no-overflow side condition that the total input
weight fits in a `u64`, since the "other" accumulator adds with wrapping
`u64` arithmetic); every stack at or above the threshold is kept, and every
output entry is either an input stack or the synthetic "other" entry, which
appears only with strictly positive weight. -/
theorem claim_C7_merge_conservation (stack_list : List CollapsedStack)
    (threshold : Nat) (hb : sum_weights stack_list < U64) :
    sum_weights (merge_small_stacks stack_list threshold) = sum_weights stack_list ∧
    (∀ s ∈ stack_list, threshold ≤ s.weight →
      s ∈ merge_small_stacks stack_list threshold) ∧
    (∀ s ∈ merge_small_stacks stack_list threshold,
      s ∈ stack_list ∨ (s.stack = "other" ∧ 0 < s.weight)) := by
  have h := merge_foldl_eq threshold stack_list ([], 0) (by simpa using hb)
  have hsplit := sum_weights_filter_split threshold stack_list
  unfold merge_small_stacks
  rw [h]
  simp only [List.nil_append, Nat.zero_add]
  by_cases hz : 0 < sum_weights (stack_list.filter fun s => s.weight < threshold)
  · rw [if_pos hz]
    refine ⟨?_, ?_, ?_⟩
    · have : sum_weights ((stack_list.filter fun s => threshold ≤ s.weight) ++
          [CollapsedStack.mk "other"
            (sum_weights (stack_list.filter fun s => s.weight < threshold))]) =
          sum_weights (stack_list.filter fun s => threshold ≤ s.weight) +
            sum_weights (stack_list.filter fun s => s.weight < threshold) := by
        simp [sum_weights]
      rw [this, hsplit]
    · intro s hs hw
      refine List.mem_append_left _ ?_
      rw [List.mem_filter]
      exact ⟨hs, by simpa using hw⟩
    · intro s hs
      rcases List.mem_append.mp hs with hs | hs
      · exact Or.inl (List.mem_of_mem_filter hs)
      · rw [List.mem_singleton] at hs
        subst hs
        exact Or.inr ⟨rfl, hz⟩
  · rw [if_neg hz]
    refine ⟨?_, ?_, ?_⟩
    · omega
    · intro s hs hw
      rw [List.mem_filter]
      exact ⟨hs, by simpa using hw⟩
    · intro s hs
      exact Or.inl (List.mem_of_mem_filter hs)

/-- Witness for C7 on a concrete list: threshold 100 keeps the 1000-weight
stack and folds 10 and 15 into "other" with weight 25. -/
theorem claim_C7_merge_conservation_witness :
    sum_weights (merge_small_stacks
      [CollapsedStack.mk "a" 1000, CollapsedStack.mk "b" 10, CollapsedStack.mk "c" 15]
      100) =
      sum_weights
        [CollapsedStack.mk "a" 1000, CollapsedStack.mk "b" 10,
         CollapsedStack.mk "c" 15] ∧
    (∀ s ∈ [CollapsedStack.mk "a" 1000, CollapsedStack.mk "b" 10,
        CollapsedStack.mk "c" 15], 100 ≤ s.weight →
      s ∈ merge_small_stacks
        [CollapsedStack.mk "a" 1000, CollapsedStack.mk "b" 10,
         CollapsedStack.mk "c" 15] 100) ∧
    (∀ s ∈ merge_small_stacks
        [CollapsedStack.mk "a" 1000, CollapsedStack.mk "b" 10,
         CollapsedStack.mk "c" 15] 100,
      s ∈ [CollapsedStack.mk "a" 1000, CollapsedStack.mk "b" 10,
        CollapsedStack.mk "c" 15] ∨ (s.stack = "other" ∧ 0 < s.weight)) :=
  claim_C7_merge_conservation
    [CollapsedStack.mk "a" 1000, CollapsedStack.mk "b" 10, CollapsedStack.mk "c" 15]
    100 (by decide)

/-- Counterexample to claim C8: a trace with one recorded storage-load
interaction but zero total host-interaction gas makes `add_hostio_stacks`
insert the entry `hostio;StorageLoad` with apportioned weight 0, so the
output of `build_collapsed_stacks` contains a zero-weight collapsed stack. -/
theorem claim_C8_counterexample :
    build_collapsed_stacks ex_trace_zero_hostio =
      [CollapsedStack.mk "hostio;StorageLoad" 0] ∧
    (CollapsedStack.mk "hostio;StorageLoad" 0) ∈
      build_collapsed_stacks ex_trace_zero_hostio := by
  decide

theorem step_contribs_pos : ∀ (l : List ExecutionStep) (call_stack : List String),
    ∀ p ∈ step_contribs l call_stack, 0 < p.2
  | [], _, p, hp => absurd hp (List.not_mem_nil p)
  | step :: rest, call_stack, p, hp => by
    by_cases hg : 0 < step.gas_cost
    · have h1 : step_contribs (step :: rest) call_stack =
          (stack_string (reconcile_depth call_stack step.depth) (op_name step),
            step.gas_cost) :: step_contribs rest (reconcile_depth call_stack step.depth) := by
        simp [step_contribs, hg]
      rw [h1, List.mem_cons] at hp
      rcases hp with hp | hp
      · subst hp
        exact hg
      · exact step_contribs_pos rest _ p hp
    · have h1 : step_contribs (step :: rest) call_stack =
          step_contribs rest (reconcile_depth call_stack step.depth) := by
        simp [step_contribs, hg]
      rw [h1] at hp
      exact step_contribs_pos rest _ p hp

/-- Claim C8 as amended: a step with zero gas cost adds nothing to the
aggregation map; and the output of `build_collapsed_stacks` contains no
zero-weight stack provided every host-interaction kind with non-zero count
receives a strictly positive apportioned weight (the counterexample shows the
proviso is necessary) and the total aggregated weight fits in a `u64`. -/
theorem claim_C8_no_zero_weights :
    (∀ (step : ExecutionStep) (rest : List ExecutionStep) (call_stack : List String)
      (m : List (String × Nat)), step.gas_cost = 0 →
      process_steps (step :: rest) call_stack m =
        process_steps rest (reconcile_depth call_stack step.depth) m) ∧
    (∀ (t : ParsedTrace) (order : List (String × Nat)),
      order.Perm (final_stack_map t) →
      pos_gas_sum t + hostio_sum t < U64 →
      (∀ ht : HostIoType, 0 < t.hostio_stats.count_for_type ht →
        0 < hostio_weight t ht) →
      ∀ s ∈ build_collapsed_stacks_from order, 0 < s.weight) := by
  constructor
  · intro step rest call_stack m hz
    simp [process_steps, hz]
  · intro t order horder hb hpos s hs
    have hmap : ∀ p ∈ final_stack_map t, 0 < p.2 := by
      rw [final_stack_map_eq]
      have h1 : sum_vals (step_contribs t.execution_steps []) = pos_gas_sum t :=
        sum_vals_step_contribs _ _
      have h2 : sum_vals (hostio_contribs t) = hostio_sum t :=
        sum_vals_hostio_contribs t
      have hz : sum_vals ([] : List (String × Nat)) = 0 := rfl
      have e1 : sum_vals (apply_adds [] (step_contribs t.execution_steps [])) =
          pos_gas_sum t := by
        rw [sum_vals_apply_adds _ _ (by rw [hz, h1]; omega), hz, h1]
        omega
      refine vals_pos_apply_adds _ _ ?_ ?_ (by rw [e1, h2]; omega)
      · refine vals_pos_apply_adds _ _ (by simp) (step_contribs_pos _ _)
          (by rw [hz, h1]; omega)
      · intro p hp
        unfold hostio_contribs hostio_kinds at hp
        rw [List.mem_map] at hp
        obtain ⟨ht, hht, rfl⟩ := hp
        have hc : 0 < t.hostio_stats.count_for_type ht := by
          have := (List.mem_filter.mp hht).2
          simpa using this
        exact hpos ht hc
    have hs2 : s ∈ order.map (fun p => CollapsedStack.mk p.1 p.2) :=
      (sort_stacks_perm _).mem_iff.mp hs
    rw [List.mem_map] at hs2
    obtain ⟨p, hp, rfl⟩ := hs2
    exact hmap p (horder.mem_iff.mp hp)

/-- Witness for C8: a zero-cost step leaves the map untouched, and on the
mixed trace (all hypotheses hold concretely) the top stack has positive
weight. -/
theorem claim_C8_no_zero_weights_witness :
    process_steps [ExecutionStep.mk 0 0 0 (some "noop") 0 none] [] [] =
      process_steps [] (reconcile_depth [] 0) [] ∧
    0 < (CollapsedStack.mk "main" 100).weight :=
  ⟨claim_C8_no_zero_weights.1 (ExecutionStep.mk 0 0 0 (some "noop") 0 none) [] [] []
      rfl,
   claim_C8_no_zero_weights.2 ex_trace_mixed (final_stack_map ex_trace_mixed)
      (List.Perm.refl _) (by decide)
      (by intro ht hc; cases ht <;> simp_all [ex_trace_mixed, hostio_weight,
        HostIoStats.count_for_type, U64])
      (CollapsedStack.mk "main" 100) (by decide)⟩

/-- Claim C9: for every `ParsedTrace` and every admissible hash-map iteration
order, the vector returned by `build_collapsed_stacks` is sorted in
non-increasing weight order: every element weighs at least as much as each
later one. -/
theorem claim_C9_sorted_output (t : ParsedTrace) (order : List (String × Nat))
    (_horder : order.Perm (final_stack_map t)) :
    List.Pairwise (fun a b => CollapsedStack.weight b ≤ CollapsedStack.weight a)
      (build_collapsed_stacks_from order) :=
  sort_stacks_sorted _

/-- Witness for C9: the canonical run on the mixed trace is sorted. -/
theorem claim_C9_sorted_output_witness :
    List.Pairwise (fun a b => CollapsedStack.weight b ≤ CollapsedStack.weight a)
      (build_collapsed_stacks ex_trace_mixed) :=
  claim_C9_sorted_output ex_trace_mixed (final_stack_map ex_trace_mixed)
    (List.Perm.refl _)

/-- Claim C10: `normalize_tx_hash` always returns a string starting with
"0x": the input is returned unchanged when it already starts with "0x" and
has "0x" prepended otherwise; consequently the function is idempotent. -/
theorem claim_C10_normalize_tx_hash (s : String) :
    starts_with (normalize_tx_hash s) "0x" = true ∧
    (starts_with s "0x" = true → normalize_tx_hash s = s) ∧
    (starts_with s "0x" = false → normalize_tx_hash s = "0x" ++ s) ∧
    normalize_tx_hash (normalize_tx_hash s) = normalize_tx_hash s := by
  have hpre : starts_with ("0x" ++ s) "0x" = true := by
    unfold starts_with
    rw [ List.isPrefixOf_iff_prefix, String.data_append]
    exact List.prefix_append _ _
  by_cases h : starts_with s "0x" = true
  · have e : normalize_tx_hash s = s := by
      rw [normalize_tx_hash, if_pos h]
    refine ⟨by rw [e]; exact h, fun _ => e, fun hf => ?_, by rw [e]; exact e⟩
    rw [h] at hf
    exact absurd hf (by simp)
  · have hb : starts_with s "0x" = false := by
      revert h
      cases starts_with s "0x" <;> simp
    have e : normalize_tx_hash s = "0x" ++ s := by
      rw [normalize_tx_hash, if_neg (by simp [hb])]
    refine ⟨by rw [e]; exact hpre, fun ht => absurd ht (by simp [hb]), fun _ => e, ?_⟩
    rw [e]
    simp only [normalize_tx_hash]
    rw [if_pos hpre]

/-- Witness for C10 at concrete inputs: a string with the prefix is kept, one
without gets it prepended. -/
theorem claim_C10_normalize_tx_hash_witness :
    normalize_tx_hash "0xdef456" = "0xdef456" ∧
    normalize_tx_hash "abc123" = "0x" ++ "abc123" :=
  ⟨(claim_C10_normalize_tx_hash "0xdef456").2.1 (by decide),
   (claim_C10_normalize_tx_hash "abc123").2.2.1 (by decide)⟩
